import Mathlib

/-!
Shallow embedding of the Woodall-number predicates from
`src/woodall_notebook/Woodall.ipynb`.

The notebook defines two Python functions:

* `is_woodall(z)` — the optimized predicate.  It returns `False` for
  `z < 1`; otherwise it sets `w = z + 1` and searches for `k` with
  `k * 2**k == w` over `range(1, 4)` when `z < 64`, and over
  `range(1, int(pow(w, 1/3)) + 1)` otherwise.
* `naive_is_woodall(z)` — the brute-force reference: starting from
  `k = 1` it increments `k` while `candidate = k*2**k <= w`, returning
  `True` on `candidate == w` and `False` once `candidate > w`.

Modelling notes.  Python integers are arbitrary precision, so `z` is
modelled as `ℤ` and the search index `k` as `ℕ`.  `range(1, n)` is the
list `[1, ..., n-1]`, i.e. `List.range' 1 (n-1)`.  The bound
`int(pow(w, 1/3))` is CPython floating-point: `w` is converted to a
C double and the cube root is truncated to an integer.  For every `w`
reachable in the branch (`w ≥ 65`) and small enough to convert, the
truncated double cube root coincides with the exact integer cube root
`icbrt w` defined below, because the candidates `k·2^k` of interest are
never within the double rounding error of a perfect cube; `icbrt` is
therefore used as the bound.  The conversion itself, however, fails for
huge inputs: CPython raises `OverflowError` when converting an integer
`n ≥ 2^1024 - 2^970` (the smallest integer that rounds to `+inf`) to a
double.  `is_woodall?` models this fallible behaviour with `Option`,
returning `none` exactly when the Python call raises; `is_woodall` is
the total idealization used where the claims stay below the overflow
bound.
-/

/-- Auxiliary linear search for the integer cube root: the largest
`m ≤ b` with `m ^ 3 ≤ n` (and `0` when no positive such `m` exists). -/
def icbrtAux (n : ℕ) : ℕ → ℕ
  | 0 => 0
  | b + 1 => if (b + 1) ^ 3 ≤ n then b + 1 else icbrtAux n b

/-- Exact integer cube root `⌊n^(1/3)⌋`: models the value of
`int(pow(w, 1/3))` in the notebook (see the module docstring for the
floating-point caveats). -/
def icbrt (n : ℕ) : ℕ := icbrtAux n n

/-- The lambda `woodall = lambda k, w=w: k * 2 ** k == w` from
`is_woodall`, with the pinned `w`. -/
def woodall (w : ℤ) (k : ℕ) : Bool := ((k : ℤ) * 2 ^ k == w)

/-- The `range_of_k_to_check` ternary from `is_woodall`:
`range(1, 4) if z < 64 else range(1, int(pow(w, 1/3)) + 1)`
where `w = z + 1`. -/
def range_of_k_to_check (z : ℤ) : List ℕ :=
  if z < 64 then List.range' 1 3
  else List.range' 1 (icbrt (z + 1).toNat)

/-- The optimized predicate `is_woodall(z)` from the notebook:
`False` for `z < 1`, otherwise `any(map(woodall, range_of_k_to_check))`
with `w = z + 1`. -/
def is_woodall (z : ℤ) : Bool :=
  if z < 1 then false
  else (range_of_k_to_check z).any (woodall (z + 1))

/-- Smallest natural number whose conversion to a CPython float (IEEE
double, round-to-nearest-even) raises `OverflowError`: integers
`≥ 2^1024 - 2^970` round to `+inf`. -/
def floatOverflowBound : ℕ := 2 ^ 1024 - 2 ^ 970

/-- `is_woodall(z)` as actually executed by CPython, with the failure
of `int(pow(w, 1/3))` made explicit: in the `z ≥ 64` branch the call
`pow(w, 1/3)` first converts `w` to a C double and raises
`OverflowError` when `w ≥ 2^1024 - 2^970`; this is modelled by `none`.
All other paths return the same boolean as `is_woodall`. -/
def is_woodall? (z : ℤ) : Option Bool :=
  if z < 1 then some false
  else if z < 64 then some ((List.range' 1 3).any (woodall (z + 1)))
  else if (z + 1).toNat < floatOverflowBound then
    some ((List.range' 1 (icbrt (z + 1).toNat)).any (woodall (z + 1)))
  else none

/-- The `while candidate <= w` loop of `naive_is_woodall`, entered with
loop counter `k` (the notebook starts it at `1`): returns `True` when
`candidate = k*2**k` equals `w`, recurses with `k + 1` while
`candidate ≤ w`, and returns `False` once `candidate > w`. -/
def naiveLoop (w : ℤ) (k : ℕ) : Bool :=
  if h : (k : ℤ) * 2 ^ k ≤ w then
    if (k : ℤ) * 2 ^ k = w then true
    else naiveLoop w (k + 1)
  else false
termination_by w.toNat + 2 - k
decreasing_by
  have h1 : (k : ℤ) ≤ (k : ℤ) * 2 ^ k := by
    have h2 : (1 : ℤ) ≤ 2 ^ k := by exact_mod_cast Nat.one_le_two_pow
    exact le_mul_of_one_le_right (Int.ofNat_nonneg k) h2
  have h3 : (k : ℤ) ≤ w := le_trans h1 h
  omega

/-- The reference predicate `naive_is_woodall(z)` from the notebook:
runs the loop on `w = z + 1` starting at `k = 1`. -/
def naive_is_woodall (z : ℤ) : Bool := naiveLoop (z + 1) 1

/-- Fuel-indexed version of the naive loop, used to state termination:
`none` means the fuel ran out before the loop exited. -/
def naiveLoopFuel : ℕ → ℤ → ℕ → Option Bool
  | 0, _, _ => none
  | fuel + 1, w, k =>
    if (k : ℤ) * 2 ^ k ≤ w then
      if (k : ℤ) * 2 ^ k = w then some true
      else naiveLoopFuel fuel w (k + 1)
    else some false

/-! Helper lemmas about the embedded definitions. -/

/-- The cube of `icbrtAux n b` never exceeds `n`. -/
lemma icbrtAux_cube_le (n : ℕ) : ∀ b : ℕ, icbrtAux n b ^ 3 ≤ n
  | 0 => by simp [icbrtAux]
  | b + 1 => by
      unfold icbrtAux
      split
      · next h => exact h
      · exact icbrtAux_cube_le n b

/-- Any `m ≤ b` whose cube is at most `n` is at most `icbrtAux n b`. -/
lemma le_icbrtAux (n m : ℕ) (hm : m ^ 3 ≤ n) : ∀ b : ℕ, m ≤ b → m ≤ icbrtAux n b
  | 0, hb => by simpa [icbrtAux] using hb
  | b + 1, hb => by
      unfold icbrtAux
      split
      · next h => exact hb
      · next h =>
          have hmb : m ≤ b := by
            rcases Nat.eq_or_lt_of_le hb with rfl | hlt
            · exact absurd hm h
            · omega
          exact le_icbrtAux n m hm b hmb

/-- `icbrt n` is a lower approximation of the cube root. -/
lemma icbrt_cube_le (n : ℕ) : icbrt n ^ 3 ≤ n := icbrtAux_cube_le n n

/-- `icbrt n` dominates every `m` with `m ^ 3 ≤ n`, so `icbrt` is the
exact integer cube root. -/
lemma le_icbrt {n m : ℕ} (hm : m ^ 3 ≤ n) : m ≤ icbrt n :=
  le_icbrtAux n m hm n (le_trans (Nat.le_self_pow (by norm_num) m) hm)

/-- The candidate `k * 2 ^ k` is monotone in `k`. -/
lemma cand_mono {i j : ℕ} (h : i ≤ j) : (i : ℤ) * 2 ^ i ≤ (j : ℤ) * 2 ^ j := by
  have h2 : i * 2 ^ i ≤ j * 2 ^ j :=
    Nat.mul_le_mul h (Nat.pow_le_pow_right (by norm_num) h)
  exact_mod_cast h2

/-- Loop invariant for the naive search: starting at counter `k`, the
loop returns `true` exactly when some `j ≥ k` has `j * 2 ^ j = w`. -/
lemma naiveLoop_true_iff (w : ℤ) (k : ℕ) :
    naiveLoop w k = true ↔ ∃ j : ℕ, k ≤ j ∧ (j : ℤ) * 2 ^ j = w := by
  induction k using naiveLoop.induct w with
  | case1 x hle heq =>
      unfold naiveLoop
      rw [dif_pos hle, if_pos heq]
      simp only [true_iff]
      exact ⟨x, le_refl x, heq⟩
  | case2 x hle hne ih =>
      unfold naiveLoop
      rw [dif_pos hle, if_neg hne, ih]
      constructor
      · rintro ⟨j, hj1, hj2⟩
        exact ⟨j, by omega, hj2⟩
      · rintro ⟨j, hj1, hj2⟩
        refine ⟨j, ?_, hj2⟩
        rcases Nat.eq_or_lt_of_le hj1 with rfl | hlt
        · exact absurd hj2 hne
        · omega
  | case3 x hgt =>
      unfold naiveLoop
      rw [dif_neg hgt]
      simp only [Bool.false_eq_true, false_iff]
      rintro ⟨j, hj1, hj2⟩
      exact hgt (hj2 ▸ cand_mono hj1)

/-- Some finite fuel makes the fuelled loop compute the same answer as
the unbounded loop. -/
lemma naiveLoopFuel_terminates (w : ℤ) (k : ℕ) :
    ∃ fuel : ℕ, naiveLoopFuel fuel w k = some (naiveLoop w k) := by
  induction k using naiveLoop.induct w with
  | case1 x hle heq =>
      refine ⟨1, ?_⟩
      unfold naiveLoop naiveLoopFuel
      rw [dif_pos hle, if_pos heq, if_pos hle, if_pos heq]
  | case2 x hle hne ih =>
      obtain ⟨fuel, hf⟩ := ih
      refine ⟨fuel + 1, ?_⟩
      unfold naiveLoop naiveLoopFuel
      rw [dif_pos hle, if_neg hne, if_pos hle, if_neg hne]
      exact hf
  | case3 x hgt =>
      refine ⟨1, ?_⟩
      unfold naiveLoop naiveLoopFuel
      rw [dif_neg hgt, if_neg hgt]

/-- The lemma of the notebook: `k ^ 2 ≤ 2 ^ k` for `k ≥ 4`. -/
lemma sq_le_two_pow {k : ℕ} (h : 4 ≤ k) : k ^ 2 ≤ 2 ^ k := by
  induction k with
  | zero => omega
  | succ n ih =>
      rcases Nat.lt_or_ge n 4 with h4 | h4
      · interval_cases n <;> omega
      · have hn := ih h4
        have h2 : 2 * n + 1 ≤ n ^ 2 := by nlinarith
        calc (n + 1) ^ 2 = n ^ 2 + (2 * n + 1) := by ring
          _ ≤ n ^ 2 + n ^ 2 := by omega
          _ = 2 * n ^ 2 := by ring
          _ ≤ 2 * 2 ^ n := by omega
          _ = 2 ^ (n + 1) := by ring

/-! The claims. -/

/-- C1: refuted on the code — the optimized and the naive predicate
disagree at `z = 63`: the small-case branch of `is_woodall` (taken
because `63 < 64`) checks only `k ∈ {1, 2, 3}`, but `63 = 4·2^4 − 1`
requires `k = 4`, so `is_woodall 63 = false` while
`naive_is_woodall 63 = true`. -/
theorem is_woodall_disagrees_naive_at_63 :
    is_woodall 63 = false ∧ naive_is_woodall 63 = true := by
  constructor
  · decide
  · show naiveLoop (63 + 1) 1 = true
    exact (naiveLoop_true_iff (63 + 1) 1).mpr ⟨4, by norm_num, by norm_num⟩

/-- C2: refuted on the code at the first conjunct — at the branch
boundary, `is_woodall 63 = false` (the claim and the notebook's own
demonstration say `true`), while `is_woodall 64 = false` holds as
claimed. -/
theorem is_woodall_boundary_63_64 :
    is_woodall 63 = false ∧ is_woodall 64 = false := by
  constructor
  · decide
  · decide

set_option maxRecDepth 4000 in
/-- C3: refuted on the code — `63` is a member of the published Woodall
set, yet `is_woodall 63 = false`; other members such as `159 = 5·2^5 − 1`
are accepted. -/
theorem is_woodall_rejects_member_63 :
    is_woodall 63 = false ∧ is_woodall 159 = true := by
  constructor
  · decide
  · decide

/-- C4: refuted on the code — `is_woodall` is not total: for
`z = 2^1024` the bound computation `int(pow(w, 1/3))` converts
`w = 2^1024 + 1` to a C double, which raises `OverflowError` because
`w ≥ 2^1024 − 2^970`; the fallible model returns `none` there. -/
theorem is_woodall_overflow_at_2_pow_1024 :
    is_woodall? (2 ^ 1024) = none := by
  have h1 : ¬ ((2 : ℤ) ^ 1024 < 1) := by
    have hp : (0 : ℤ) < 2 ^ 1024 := by positivity
    omega
  have h2 : ¬ ((2 : ℤ) ^ 1024 < 64) := by
    have hp : (2 : ℤ) ^ 6 ≤ 2 ^ 1024 := pow_le_pow_right₀ (by norm_num) (by norm_num)
    have h6 : (2 : ℤ) ^ 6 = 64 := by norm_num
    omega
  have h3 : ¬ (((2 : ℤ) ^ 1024 + 1).toNat < floatOverflowBound) := by
    have e : ((2 : ℤ) ^ 1024 + 1) = ((2 ^ 1024 + 1 : ℕ) : ℤ) := by push_cast; ring
    rw [e, Int.toNat_natCast]
    unfold floatOverflowBound
    omega
  unfold is_woodall?
  rw [if_neg h1, if_neg h2, if_neg h3]

/-- C5: the search-bound mathematics — for every `k ≥ 4`,
`k ^ 2 ≤ 2 ^ k`; and for every integer `W ≥ 63`, if `W = k·2^k − 1`
for a positive `k`, then `k ^ 3 ≤ W + 1` and `k` lies within the
integer cube-root bound `icbrt (W + 1)` that the else-branch of
`is_woodall` searches up to. -/
theorem search_bound_math :
    (∀ k : ℕ, 4 ≤ k → k ^ 2 ≤ 2 ^ k) ∧
    (∀ (W : ℤ) (k : ℕ), 63 ≤ W → 1 ≤ k → (k : ℤ) * 2 ^ k = W + 1 →
      (k : ℤ) ^ 3 ≤ W + 1 ∧ k ≤ icbrt (W + 1).toNat) := by
  constructor
  · exact fun k h => sq_le_two_pow h
  · intro W k hW hk h
    have hn : ((k * 2 ^ k : ℕ) : ℤ) = W + 1 := by push_cast; exact h
    have h64 : 64 ≤ k * 2 ^ k := by
      have h64i : (64 : ℤ) ≤ ((k * 2 ^ k : ℕ) : ℤ) := by rw [hn]; omega
      exact_mod_cast h64i
    have hk4 : 4 ≤ k := by
      by_contra hlt
      push_neg at hlt
      interval_cases k <;> omega
    have hcube : k ^ 3 ≤ k * 2 ^ k := by
      have hsq := sq_le_two_pow hk4
      calc k ^ 3 = k * k ^ 2 := by ring
        _ ≤ k * 2 ^ k := Nat.mul_le_mul_left k hsq
    constructor
    · have hc : ((k ^ 3 : ℕ) : ℤ) ≤ ((k * 2 ^ k : ℕ) : ℤ) := by exact_mod_cast hcube
      rw [hn] at hc
      push_cast at hc
      exact hc
    · apply le_icbrt
      have ht : (W + 1).toNat = k * 2 ^ k := by omega
      rw [ht]
      exact hcube

/-- C5 witness: the bound claims instantiated at `k = 4`, `W = 63`. -/
theorem search_bound_math_witness :
    (4 : ℕ) ^ 2 ≤ 2 ^ 4 ∧
    ((4 : ℕ) : ℤ) ^ 3 ≤ (63 : ℤ) + 1 ∧ (4 : ℕ) ≤ icbrt ((63 : ℤ) + 1).toNat :=
  ⟨search_bound_math.1 4 (by decide),
   search_bound_math.2 63 4 (by decide) (by decide) (by norm_num)⟩

/-- C6: the naive predicate matches the mathematical definition —
`naive_is_woodall z = true` iff some positive `k` has
`k * 2 ^ k = z + 1`. -/
theorem naive_is_woodall_iff (z : ℤ) :
    naive_is_woodall z = true ↔ ∃ k : ℕ, 1 ≤ k ∧ (k : ℤ) * 2 ^ k = z + 1 := by
  show naiveLoop (z + 1) 1 = true ↔ _
  exact naiveLoop_true_iff (z + 1) 1

/-- C7: the optimized predicate rejects every `z < 1` via its explicit
guard. -/
theorem is_woodall_neg (z : ℤ) (h : z < 1) : is_woodall z = false := by
  unfold is_woodall
  rw [if_pos h]

/-- C7 witness: instantiated at `z = -5`. -/
theorem is_woodall_neg_witness : (-5 : ℤ) < 1 ∧ is_woodall (-5) = false :=
  ⟨by decide, is_woodall_neg (-5) (by decide)⟩

/-- C8: the naive loop terminates on every input — some finite fuel
suffices for the fuelled loop to return the unbounded loop's answer. -/
theorem naive_is_woodall_terminates (z : ℤ) :
    ∃ fuel : ℕ, naiveLoopFuel fuel (z + 1) 1 = some (naive_is_woodall z) :=
  naiveLoopFuel_terminates (z + 1) 1

/-- C9: the naive predicate also rejects every `z < 1`, with no explicit
sign check — no candidate `k * 2 ^ k` with `k ≥ 1` is at most
`w = z + 1 ≤ 1`, so the loop exits at once. -/
theorem naive_is_woodall_neg (z : ℤ) (h : z < 1) : naive_is_woodall z = false := by
  rw [Bool.eq_false_iff]
  intro htrue
  have hiff := naiveLoop_true_iff (z + 1) 1
  obtain ⟨j, hj1, hj2⟩ := hiff.mp htrue
  have h2 := cand_mono hj1
  rw [hj2] at h2
  norm_num at h2
  omega

/-- C9 witness: instantiated at `z = 0`. -/
theorem naive_is_woodall_neg_witness : (0 : ℤ) < 1 ∧ naive_is_woodall 0 = false :=
  ⟨by decide, naive_is_woodall_neg 0 (by decide)⟩

/-- C10: on `1 ≤ z ≤ 63` the code accepts exactly `{1, 7, 23}` — the
small-case branch checks only `k ∈ {1, 2, 3}`, so `63` (which needs
`k = 4`) is not accepted. -/
theorem is_woodall_small_range (z : ℤ) (h1 : 1 ≤ z) (h2 : z ≤ 63) :
    is_woodall z = true ↔ z = 1 ∨ z = 7 ∨ z = 23 := by
  interval_cases z <;> decide

/-- C10 witness: instantiated at `z = 23`. -/
theorem is_woodall_small_range_witness :
    (1 : ℤ) ≤ 23 ∧ (23 : ℤ) ≤ 63 ∧
    (is_woodall 23 = true ↔ (23 : ℤ) = 1 ∨ (23 : ℤ) = 7 ∨ (23 : ℤ) = 23) :=
  ⟨by decide, by decide, is_woodall_small_range 23 (by decide) (by decide)⟩
